import Mathlib

/-!
Verification development for the SAR single-node recommender
(`reco_utils_2/recommender/sar/sar_singlenode.py`).

The Python code is shallowly embedded: pandas dataframes of interaction
records become lists of `Row`, scipy sparse matrices become lists of stored
entries or finitely supported functions, and the IEEE-754 special values
produced by numpy (`-inf`, `+inf`, `nan`) are modelled by the inductive
type `F` whose arithmetic follows the IEEE rules on the cases that can
occur.  Exact rational arithmetic stands in for floating point: none of
the verified properties depends on rounding.

Helper functions imported by the source from `reco_utils.common.python_utils`
(`jaccard`, `lift`, `exponential_decay`, `get_top_k_scored_items`) are not
part of the repository snapshot; where needed they are modelled from the
specification text and marked as such in their doc comments.
-/

set_option autoImplicit false

namespace SARSpec

/-- IEEE-754-style extended value as produced by numpy arithmetic:
a finite (here: exact rational) number, plus infinity, minus infinity,
or not-a-number. -/
inductive F where
  | fin : ℚ → F
  | pinf : F
  | ninf : F
  | nan : F
deriving DecidableEq

/-- IEEE addition on `F` (numpy `+` semantics on the representable cases). -/
def fadd : F → F → F
  | .nan, _ => .nan
  | _, .nan => .nan
  | .fin a, .fin b => .fin (a + b)
  | .fin _, .pinf => .pinf
  | .fin _, .ninf => .ninf
  | .pinf, .fin _ => .pinf
  | .ninf, .fin _ => .ninf
  | .pinf, .pinf => .pinf
  | .ninf, .ninf => .ninf
  | .pinf, .ninf => .nan
  | .ninf, .pinf => .nan

/-- IEEE multiplication on `F` (numpy `*` semantics); `0 * ±inf = nan`. -/
def fmul : F → F → F
  | .nan, _ => .nan
  | _, .nan => .nan
  | .fin a, .fin b => .fin (a * b)
  | .fin a, .pinf => if 0 < a then .pinf else if a < 0 then .ninf else .nan
  | .fin a, .ninf => if 0 < a then .ninf else if a < 0 then .pinf else .nan
  | .pinf, .fin a => if 0 < a then .pinf else if a < 0 then .ninf else .nan
  | .ninf, .fin a => if 0 < a then .ninf else if a < 0 then .pinf else .nan
  | .pinf, .pinf => .pinf
  | .pinf, .ninf => .ninf
  | .ninf, .pinf => .ninf
  | .ninf, .ninf => .pinf

/-- IEEE division on `F` (numpy `/` semantics; the model has no signed
zero, division of a finite value by zero takes the sign of the numerator,
and `0 / 0 = nan`). -/
def fdiv : F → F → F
  | .nan, _ => .nan
  | _, .nan => .nan
  | .fin a, .fin b =>
      if b = 0 then (if 0 < a then .pinf else if a < 0 then .ninf else .nan)
      else .fin (a / b)
  | .fin _, .pinf => .fin 0
  | .fin _, .ninf => .fin 0
  | .pinf, .fin b => if b < 0 then .ninf else .pinf
  | .ninf, .fin b => if b < 0 then .pinf else .ninf
  | .pinf, .pinf => .nan
  | .pinf, .ninf => .nan
  | .ninf, .pinf => .nan
  | .ninf, .ninf => .nan

/-- The numpy idiom `np.where(np.isnan(x), -np.inf, x)` applied cellwise. -/
def nanToNinf (x : F) : F := if x = F.nan then F.ninf else x

theorem nanToNinf_ne_nan (x : F) : nanToNinf x ≠ F.nan := by
  unfold nanToNinf
  split
  · intro h
    exact F.noConfusion h
  · assumption

/-- One interaction record of the training dataframe: external ids are
`Nat`, the rating and timestamp columns are numeric. -/
structure Row where
  user : Nat
  item : Nat
  rating : ℚ
  ts : ℚ
deriving DecidableEq

/-- Auxiliary for `dedupFirst`: `seen` accumulates already-emitted keys. -/
def dedupFirstAux {α : Type} [DecidableEq α] : List α → List α → List α
  | _, [] => []
  | seen, x :: xs =>
      if x ∈ seen then dedupFirstAux seen xs
      else x :: dedupFirstAux (x :: seen) xs

/-- pandas `unique()` / `drop_duplicates()` with default `keep="first"`:
keeps the first occurrence of each value, in input order. -/
def dedupFirst {α : Type} [DecidableEq α] (l : List α) : List α :=
  dedupFirstAux [] l

theorem mem_dedupFirstAux {α : Type} [DecidableEq α] (a : α) :
    ∀ (l seen : List α), a ∈ dedupFirstAux seen l ↔ a ∈ l ∧ a ∉ seen := by
  intro l
  induction l with
  | nil => intro seen; simp [dedupFirstAux]
  | cons x xs ih =>
      intro seen
      by_cases hx : x ∈ seen
      · simp only [dedupFirstAux, if_pos hx, ih, List.mem_cons]
        constructor
        · rintro ⟨h1, h2⟩; exact ⟨Or.inr h1, h2⟩
        · rintro ⟨h1 | h1, h2⟩
          · exact absurd (h1 ▸ hx) h2
          · exact ⟨h1, h2⟩
      · simp only [dedupFirstAux, if_neg hx, List.mem_cons, ih]
        constructor
        · rintro (rfl | ⟨h1, h2⟩)
          · exact ⟨Or.inl rfl, hx⟩
          · exact ⟨Or.inr h1, fun hc => h2 (Or.inr hc)⟩
        · rintro ⟨rfl | h1, h2⟩
          · exact Or.inl rfl
          · by_cases hax : a = x
            · exact Or.inl hax
            · exact Or.inr ⟨h1, fun hc => hc.elim (fun h => hax h) (fun h => h2 h)⟩

theorem mem_dedupFirst {α : Type} [DecidableEq α] (a : α) (l : List α) :
    a ∈ dedupFirst l ↔ a ∈ l := by
  simp [dedupFirst, mem_dedupFirstAux]

theorem nodup_dedupFirstAux {α : Type} [DecidableEq α] :
    ∀ (l seen : List α), (dedupFirstAux seen l).Nodup := by
  intro l
  induction l with
  | nil => intro seen; simp [dedupFirstAux]
  | cons x xs ih =>
      intro seen
      by_cases hx : x ∈ seen
      · simpa [dedupFirstAux, if_pos hx] using ih seen
      · simp only [dedupFirstAux, if_neg hx, List.nodup_cons]
        refine ⟨fun hc => ?_, ih (x :: seen)⟩
        exact ((mem_dedupFirstAux x xs (x :: seen)).mp hc).2 (List.mem_cons_self x seen)

theorem nodup_dedupFirst {α : Type} [DecidableEq α] (l : List α) :
    (dedupFirst l).Nodup :=
  nodup_dedupFirstAux l []

/-- Does row `s` have the same (user, item) key as row `r`?  Used by the
no-decay deduplication. -/
def samePair (r s : Row) : Bool := decide (s.user = r.user ∧ s.item = r.item)

/-- pandas `drop_duplicates([col_user, col_item], keep="last")` as used in
`fit` when time decay is disabled: a row survives exactly when no later row
carries the same (user, item) key; relative order is preserved.  Note the
timestamp column has already been dropped at this point of `fit`. -/
def dedupKeepLast : List Row → List Row
  | [] => []
  | r :: rs =>
      if rs.any (samePair r) then dedupKeepLast rs
      else r :: dedupKeepLast rs

/-- Modelled from the spec: the specified no-decay deduplication, which
"keeps only the most recent (by timestamp column if available, else input
order) row per (user, item) pair".  A row at position `p` is kept when
every row with the same key either has a strictly smaller timestamp or has
the same timestamp and does not occur later.  This is the comparison
definition for the refinement claim C4; the code's own behaviour is
`dedupKeepLast`. -/
def specDedup (l : List Row) : List Row :=
  (l.enum.filter (fun pr =>
    l.enum.all (fun qs =>
      decide ((qs.2.user = pr.2.user ∧ qs.2.item = pr.2.item) →
        (qs.2.ts < pr.2.ts ∨ (qs.2.ts = pr.2.ts ∧ qs.1 ≤ pr.1)))))).map Prod.snd

/-- Boolean (user, item) key match used to read one cell out of a row list. -/
def pmatch (u i : Nat) (r : Row) : Bool := decide (r.user = u ∧ r.item = i)

/-- The value the sparse COO→CSR constructor stores at cell `(u, i)`:
the sum of the rating column over all rows carrying that key (scipy sums
duplicate coordinates). -/
def affValue (rows : List Row) (u i : Nat) : ℚ :=
  ((rows.filter (pmatch u i)).map Row.rating).sum

/-- Sum of the timestamp column over the rows with key `(u, i)` (this is
what `groupby([user, item]).sum()` leaves in the timestamp column). -/
def tsSum (rows : List Row) (u i : Nat) : ℚ :=
  ((rows.filter (pmatch u i)).map Row.ts).sum

/-- The distinct (user, item) keys of a row list, in first-seen order. -/
def pairsOf (rows : List Row) : List (Nat × Nat) :=
  dedupFirst (rows.map (fun r => (r.user, r.item)))

/-- pandas `groupby([col_user, col_item]).sum().reset_index()`: one row per
distinct key, with the numeric columns (rating and timestamp) summed. -/
def groupRows (rows : List Row) : List Row :=
  (pairsOf rows).map (fun p => ⟨p.1, p.2, affValue rows p.1 p.2, tsSum rows p.1 p.2⟩)

/-- `compute_time_decay` applied to the rating column: the decay factor
(a black-box pure function of the timestamp, per spec §1 the exponential
half-life decay with `time_now` and the half-life baked in) multiplies the
rating, then rows are grouped by key and summed. -/
def timeDecayRating (dec : ℚ → ℚ) (rows : List Row) : List Row :=
  groupRows (rows.map (fun r => { r with rating := r.rating * dec r.ts }))

/-- The code's unity-affinity pipeline under time decay (`fit`, normalize
branch): the rating column is decayed and aggregated first, a constant
`1.0` unity column is added to the aggregated frame, and
`compute_time_decay` runs again on that unity column — so the decay factor
for the unity weight is evaluated at the timestamp column of the
aggregated frame, which `groupby(...).sum()` left equal to the SUM of the
key's raw timestamps. -/
def codeUnityRows (dec : ℚ → ℚ) (rows : List Row) : List Row :=
  groupRows ((timeDecayRating dec rows).map (fun r => { r with rating := dec r.ts }))

/-- Stored unity-affinity cell produced by the code at key `(u, i)`. -/
def codeUnityAff (dec : ℚ → ℚ) (rows : List Row) (u i : Nat) : ℚ :=
  affValue (codeUnityRows dec rows) u i

/-- Modelled from the spec: "Unity-affinity construction runs the identical
pipeline with all raw weights forced to 1.0" — every raw row's rating is
replaced by `1.0` and then the very same decay-and-aggregate pipeline runs
on the raw rows. -/
def specUnityRows (dec : ℚ → ℚ) (rows : List Row) : List Row :=
  timeDecayRating dec (rows.map (fun r => { r with rating := 1 }))

/-- Unity-affinity cell at key `(u, i)` according to the spec's words. -/
def specUnityAff (dec : ℚ → ℚ) (rows : List Row) (u i : Nat) : ℚ :=
  affValue (specUnityRows dec rows) u i

/-- Cell `(u, i)` of the binary incidence matrix `user_item_hits` built in
`compute_coocurrence_matrix`: the data is `np.repeat(1, len(df))`, so after
COO→CSR duplicate summing the stored value is the number of rows carrying
the key. -/
def hits (rows : List Row) (u i : Nat) : ℚ :=
  (rows.countP (pmatch u i) : ℚ)

/-- Cell `(i, j)` of `item_cooccurrence = U^T · U` before the threshold
mask; the user dimension of `U` is `n_users`. -/
def cooc (rows : List Row) (nU : Nat) (i j : Nat) : ℚ :=
  ∑ u ∈ Finset.range nU, hits rows u i * hits rows u j

/-- The threshold mask `C.multiply(C >= threshold)` applied to the
co-occurrence matrix. -/
def coocMasked (rows : List Row) (nU : Nat) (t : ℚ) (i j : Nat) : ℚ :=
  cooc rows nU i j * (if t ≤ cooc rows nU i j then 1 else 0)

/-- Modelled from the spec: `jaccard` is imported from
`reco_utils.common.python_utils`, which is absent from the repository
snapshot; per §4.4, `similarity(i,j) = cooccurrence(i,j) /
(freq(i) + freq(j) − cooccurrence(i,j))` with `0/0` defined as `0`
(rational division by zero yields `0` here).  In `fit` it is applied to
the threshold-masked co-occurrence matrix, whose diagonal supplies the
frequencies. -/
def simJaccard (rows : List Row) (nU : Nat) (t : ℚ) (i j : Nat) : ℚ :=
  coocMasked rows nU t i j /
    (coocMasked rows nU t i i + coocMasked rows nU t j j - coocMasked rows nU t i j)

/-- Modelled from the spec: `lift` is likewise absent from the snapshot;
per §4.4, `similarity(i,j) = cooccurrence(i,j) / (freq(i) · freq(j))`
with `0/0` defined as `0`. -/
def simLift (rows : List Row) (nU : Nat) (t : ℚ) (i j : Nat) : ℚ :=
  coocMasked rows nU t i j / (coocMasked rows nU t i i * coocMasked rows nU t j j)

/-- One assignment `M[a, b] = v` into the dense feature-similarity matrix. -/
def writeCell (M : Nat → Nat → ℚ) (a b : Nat) (v : ℚ) : Nat → Nat → ℚ :=
  fun x y => if x = a ∧ y = b then v else M x y

/-- The double loop of `make_sim_matrix`: for every pair of feature rows
`ri, rj` it assigns `M[idxf ri, idxf rj] = fF ri.val rj.val`, where `idxf`
is the item-to-index lookup applied to the row's item id and `fF` the
caller-supplied pairwise similarity function.  `init` models the
uninitialised `np.empty` contents. -/
def makeSimMatrix {α : Type} (idxf : Nat → Nat) (fF : α → α → ℚ)
    (feats : List (Nat × α)) (init : Nat → Nat → ℚ) : Nat → Nat → ℚ :=
  feats.foldl
    (fun M ri =>
      feats.foldl (fun M rj => writeCell M (idxf ri.1) (idxf rj.1) (fF ri.2 rj.2)) M)
    init

/-- The `custom` similarity of `fit`:
`col_weights['ratings'] * jaccard(C) + (1 − col_weights['ratings']) * features_sim_matrix`
(here with a single feature column of weight 1; several columns sum the
same way and preserve all symmetry arguments). -/
def customSim {α : Type} (rows : List Row) (nU : Nat) (t : ℚ) (w : ℚ)
    (idxf : Nat → Nat) (fF : α → α → ℚ) (feats : List (Nat × α))
    (init : Nat → Nat → ℚ) (i j : Nat) : ℚ :=
  w * simJaccard rows nU t i j + (1 - w) * makeSimMatrix idxf fF feats init i j

/-- The fitted model state used at inference time.  `affinity` and
`unityAffinity` are sparse matrices given by their stored entries
`(user_index, item_index, value)`; `sim` is the item-similarity matrix. -/
structure Model where
  nUsers : Nat
  nItems : Nat
  user2index : Nat → Option Nat
  item2index : Nat → Option Nat
  index2item : Nat → Nat
  affinity : List (Nat × Nat × ℚ)
  unityAffinity : Option (List (Nat × Nat × ℚ))
  sim : Nat → Nat → ℚ

/-- The two exceptions `score` can raise: unknown user
(`"SAR cannot score users that are not in the training set"`) and
normalization requested without the unity matrix
(`"Cannot use normalize flag during scoring ..."`). -/
inductive ScoreErr where
  | unknownEntity : ScoreErr
  | normalizationUnavailable : ScoreErr
deriving DecidableEq

/-- Row `ui` of `user_affinity` multiplied by the similarity matrix:
`Σ_j affinity(ui, j) · sim(j, i)`, summing over the stored entries of the
row, exactly as the sparse dot product does. -/
def scoreRowRaw (m : Model) (ui i : Nat) : ℚ :=
  ((m.affinity.filter (fun e => decide (e.1 = ui))).map
    (fun e => e.2.2 * m.sim e.2.1 i)).sum

/-- The seen-item mask addend `(user_affinity[user_ids, :] * -np.inf)` at
cell `(ui, i)`: scalar multiplication by `-inf` hits only the STORED
entries of the sparse matrix (implicit zeros stay an exact 0), and the
sparse-plus-dense addition then sums the transformed stored values into
the cell. -/
def maskTerm (m : Model) (ui i : Nat) : F :=
  ((m.affinity.filter (fun e => decide (e.1 = ui ∧ e.2.1 = i))).map
    (fun e => fmul (F.fin e.2.2) F.ninf)).foldl fadd (F.fin 0)

/-- Row `ui` of a unity affinity matrix `ua` multiplied by the similarity
matrix (the normalization denominator of `score`). -/
def unityRowRaw (ua : List (Nat × Nat × ℚ)) (sim : Nat → Nat → ℚ) (ui i : Nat) : ℚ :=
  ((ua.filter (fun e => decide (e.1 = ui))).map (fun e => e.2.2 * sim e.2.1 i)).sum

/-- `SARSingleNode.score`.  The test users are deduplicated in first-seen
order and mapped through the Identity Index; any unknown user aborts the
whole call.  Each returned row is paired with the external user id it
belongs to (the code returns the bare matrix whose row order is exactly
this list order).  With `removeSeen` the `-inf` mask addend is applied;
with `normalize` the (possibly masked) scores are divided cellwise by the
unity scores and NaN cells are replaced by `-inf`. -/
def score (m : Model) (test : List Nat) (removeSeen normalize : Bool) :
    Except ScoreErr (List (Nat × (Nat → F))) :=
  let users := dedupFirst test
  if users.any (fun u => (m.user2index u).isNone) then
    .error .unknownEntity
  else
    let rowFor : Nat → Nat → F := fun u i =>
      let ui := (m.user2index u).getD 0
      if removeSeen then fadd (F.fin (scoreRowRaw m ui i)) (maskTerm m ui i)
      else F.fin (scoreRowRaw m ui i)
    if normalize then
      match m.unityAffinity with
      | none => .error .normalizationUnavailable
      | some ua =>
          .ok (users.map (fun u =>
            (u, fun i =>
              nanToNinf (fdiv (rowFor u i)
                (F.fin (unityRowRaw ua m.sim ((m.user2index u).getD 0) i))))))
    else
      .ok (users.map (fun u => (u, rowFor u)))

/-- Reads one cell out of a `score` result: row of the user at position
`r`, column `i`; defaults to `nan` when the call failed or the row does
not exist. -/
def getCell (res : Except ScoreErr (List (Nat × (Nat → F)))) (r i : Nat) : F :=
  match res with
  | .error _ => F.nan
  | .ok rows => ((rows.get? r).map (fun p => p.2 i)).getD F.nan

/-- Failure modes of `predict`: the unknown-user exception propagated from
`score`, the `np.append` dimension mismatch (the zero column is created
with `self.n_users` rows, the score matrix has one row per distinct test
user), and out-of-range fancy indexing `test_scores[user_ids, item_ids]`
(the row indices come from the global training user index while the score
matrix rows are positional). -/
inductive PredictErr where
  | unknownUser : PredictErr
  | shapeMismatch : PredictErr
  | rowIndexOutOfRange : PredictErr
deriving DecidableEq

/-- `SARSingleNode.predict`.  Returns the warning flag ("Items found in
test not seen during training ...") together with one output triple
`(user, item, prediction)` per test row. -/
def predict (m : Model) (test : List (Nat × Nat)) :
    Except PredictErr (Bool × List (Nat × Nat × F)) :=
  match score m (test.map Prod.fst) false false with
  | .error _ => .error .unknownUser
  | .ok res =>
      let srows : List (Nat → F) := res.map Prod.snd
      let uIdx : Nat × Nat → Nat := fun p => (m.user2index p.1).getD 0
      if test.any (fun p => (m.item2index p.2).isNone) then
        -- np.append(test_scores, np.zeros((self.n_users, 1)), axis=1)
        if srows.length = m.nUsers then
          let ext : List (Nat → F) :=
            srows.map (fun row i => if i = m.nItems then F.fin 0 else row i)
          let iIdx : Nat × Nat → Nat := fun p => (m.item2index p.2).getD m.nItems
          if test.all (fun p => uIdx p < ext.length) then
            .ok (true, test.map (fun p =>
              (p.1, p.2, (ext.getD (uIdx p) (fun _ => F.nan)) (iIdx p))))
          else .error .rowIndexOutOfRange
        else .error .shapeMismatch
      else
        if test.all (fun p => uIdx p < srows.length) then
          .ok (false, test.map (fun p =>
            (p.1, p.2, (srows.getD (uIdx p) (fun _ => F.nan)) ((m.item2index p.2).getD 0))))
        else .error .rowIndexOutOfRange

/-- Total comparison on `F` used by the top-K selector: `-inf` below every
finite value, finite values by their rational order, `+inf` above; `nan`
is placed above everything (it never occurs in the rows being selected). -/
def fltB : F → F → Bool
  | .ninf, .ninf => false
  | .ninf, _ => true
  | .fin _, .ninf => false
  | .fin a, .fin b => decide (a < b)
  | .fin _, _ => true
  | .pinf, .nan => true
  | .pinf, _ => false
  | .nan, _ => false

/-- Sorting relation of the top-K selector: higher scores first, ties
broken by ascending column index. -/
def topRel (a b : Nat × F) : Prop :=
  fltB b.2 a.2 = true ∨ (b.2 = a.2 ∧ a.1 ≤ b.1)

instance : DecidableRel topRel := fun _ _ =>
  inferInstanceAs (Decidable (_ ∨ _))

/-- Modelled from the spec: `get_top_k_scored_items` is imported from
`reco_utils.common.python_utils`, absent from the snapshot.  Per §4.6 the
selector returns, for one score row over `n` columns, the `k`
highest-scoring `(column index, value)` pairs sorted strictly descending
by value with ties broken by ascending column index, and all columns when
`k ≥ n`. -/
def topK (n : Nat) (row : Nat → F) (k : Nat) : List (Nat × F) :=
  (List.insertionSort topRel ((List.range n).map (fun i => (i, row i)))).take k

/-- The distinct grouping users of a cold-start seed set, in first-seen
order (the code's local `user2index = {x[1]: x[0] for x in enumerate(...)}`
maps each one to its position in this list). -/
def seedUsers (seeds : List (Nat × Nat × ℚ)) : List Nat :=
  dedupFirst (seeds.map (fun s => s.1))

/-- Local user index of a grouping user in the cold-start call. -/
def seedLIdx (seeds : List (Nat × Nat × ℚ)) (u : Nat) : Nat :=
  (seedUsers seeds).indexOf u

/-- Item index of an external item id through the trained Identity Index
(seed items are required to resolve; see `get_item_based_topk`). -/
def itemIdxOf (m : Model) (it : Nat) : Nat :=
  (m.item2index it).getD 0

/-- The pseudo-affinity cell `(r, j)` built from the seed rows by the COO
constructor (duplicate coordinates are summed). -/
def pseudoAff (m : Model) (seeds : List (Nat × Nat × ℚ)) (r j : Nat) : ℚ :=
  ((seeds.filter (fun s => decide (seedLIdx seeds s.1 = r ∧ itemIdxOf m s.2.1 = j))).map
    (fun s => s.2.2)).sum

/-- Raw cold-start score: pseudo-affinity row times the similarity matrix. -/
def coldRaw (m : Model) (seeds : List (Nat × Nat × ℚ)) (r i : Nat) : ℚ :=
  ∑ j ∈ Finset.range m.nItems, pseudoAff m seeds r j * m.sim j i

/-- Cold-start scores after the seed mask
`test_scores[user_ids, item_ids] = -np.inf`: every (local user, seed item)
cell is overwritten with `-inf`. -/
def coldMasked (m : Model) (seeds : List (Nat × Nat × ℚ)) (r i : Nat) : F :=
  if seeds.any (fun s => decide (seedLIdx seeds s.1 = r ∧ itemIdxOf m s.2.1 = i)) then
    F.ninf
  else F.fin (coldRaw m seeds r i)

/-- `SARSingleNode.get_item_based_topk`, after the optional-column
defaulting described in its docstring: each seed is a
`(grouping user, item id, rating)` triple.  A local first-seen index is
built over the grouping users, the pseudo-affinity matrix is assembled by
summing seed ratings per cell, scores are the pseudo-affinity rows times
the similarity matrix, the seed cells are overwritten with `-inf`,
top-K selection runs per row, the item indices are mapped back through
`index2item`, and finally `df.replace(-np.inf, np.nan).dropna()` drops
every non-finite prediction row. -/
def getItemBasedTopk (m : Model) (seeds : List (Nat × Nat × ℚ)) (k : Nat) :
    List (Nat × Nat × F) :=
  (((List.range (seedUsers seeds).length).map (fun r =>
      (topK m.nItems (coldMasked m seeds r) k).map (fun p =>
        ((seedUsers seeds).getD r 0, m.index2item p.1, p.2)))).flatten).filter
    (fun p => decide (p.2.2 ≠ F.ninf ∧ p.2.2 ≠ F.nan))

/-- The mutable fields of `SARSingleNode` touched by `load_file`; the
index mappings are modelled as association lists as restored from disk. -/
structure LoadState where
  n_users : Nat
  n_items : Nat
  user2index : List (Nat × Nat)
  item2index : List (Nat × Nat)
  index2item : List (Nat × Nat)

/-- `SARSingleNode.load_file` (restore-from-disk path), assignment by
assignment: the item mappings are loaded from the pickled files, the user
mapping is rebuilt from the distinct users of the ratings dataframe, then
`self.n_users = self.n_items = len(self.user2index)` transiently sets
BOTH counters to the user count, and the final statement overwrites
`self.n_items` with `len(self.index2item)`. -/
def load_file (s : LoadState) (idx2item item2idx : List (Nat × Nat))
    (dfUsers : List Nat) : LoadState :=
  let s1 := { s with index2item := idx2item }
  let s2 := { s1 with item2index := item2idx }
  let u2i := (dedupFirst dfUsers).enum.map (fun p => (p.2, p.1))
  let s3 := { s2 with user2index := u2i, n_users := u2i.length, n_items := u2i.length }
  { s3 with n_items := idx2item.length }

/-- The stored entries of a sparse matrix carry pairwise distinct
coordinates (guaranteed by the COO→CSR conversion). -/
abbrev PairsNodup (l : List (Nat × Nat × ℚ)) : Prop :=
  (l.map (fun e => (e.1, e.2.1))).Nodup

/-- A row list carries at most one row per (user, item) key. -/
abbrev RowsNodup (rows : List Row) : Prop :=
  (rows.map (fun r => (r.user, r.item))).Nodup

theorem filter_pair_eq (l : List (Nat × Nat × ℚ)) (ui i : Nat) (a : ℚ)
    (hnd : PairsNodup l) (he : (ui, i, a) ∈ l) :
    l.filter (fun e => decide (e.1 = ui ∧ e.2.1 = i)) = [(ui, i, a)] := by
  induction l with
  | nil => cases he
  | cons e es ih =>
      simp only [PairsNodup, List.map_cons, List.nodup_cons] at hnd
      obtain ⟨hni, hnd2⟩ := hnd
      rcases List.mem_cons.mp he with heq | hes
      · subst heq
        rw [List.filter_cons_of_pos (by simp)]
        have hrest : es.filter (fun e => decide (e.1 = ui ∧ e.2.1 = i)) = [] := by
          rw [List.filter_eq_nil_iff]
          intro x hx hmatch
          simp only [decide_eq_true_eq] at hmatch
          exact hni (List.mem_map.mpr ⟨x, hx, by simp [hmatch.1, hmatch.2]⟩)
        rw [hrest]
      · have hne : ¬(e.1 = ui ∧ e.2.1 = i) := by
          intro hmatch
          exact hni (by
            rw [hmatch.1, hmatch.2]
            exact List.mem_map.mpr ⟨(ui, i, a), hes, rfl⟩)
        rw [List.filter_cons_of_neg (by simpa using hne)]
        exact ih hnd2 hes

theorem maskTerm_pos (m : Model) (ui i : Nat) (a : ℚ)
    (hnd : PairsNodup m.affinity) (he : (ui, i, a) ∈ m.affinity) (ha : 0 < a) :
    maskTerm m ui i = F.ninf := by
  unfold maskTerm
  rw [filter_pair_eq m.affinity ui i a hnd he]
  simp [fmul, fadd, ha]

theorem dedup_any_isNone_false (m : Model) (test : List Nat)
    (hall : ∀ v ∈ test, (m.user2index v).isSome) :
    ((dedupFirst test).any (fun u => (m.user2index u).isNone)) = false := by
  rw [List.any_eq_false]
  intro u hu
  have h1 := hall u ((mem_dedupFirst u test).mp hu)
  intro hcontra
  rw [Option.isNone_iff_eq_none] at hcontra
  rw [hcontra] at h1
  cases h1

/-- C1, counterexample model: a single user with a strictly NEGATIVE
stored affinity on the single item. -/
def mC1x : Model :=
  ⟨1, 1, fun u => if u = 0 then some 0 else none, fun _ => none, fun _ => 0,
    [(0, 0, (-1 : ℚ))], none, fun _ _ => 1⟩

/-- C1 (counterexample): the claim promises `-inf` at every NONZERO
affinity cell, but a negative stored affinity is multiplied by `-np.inf`
into `+inf`, so the masked score cell is `+inf`, not `-inf`. -/
theorem sar_C1_counterexample :
    getCell (score mC1x [0] true false) 0 0 = F.pinf ∧
    getCell (score mC1x [0] true false) 0 0 ≠ F.ninf := by
  decide

/-- C1 (amended): for every user `u` of the scoring batch and every item
`i` with a strictly POSITIVE stored training affinity at `(u, i)`, `score`
with `exclude_seen = true` puts `-inf` in that cell, regardless of the
values of the item-similarity matrix. -/
theorem sar_C1_amended (m : Model) (test : List Nat) (u ui i : Nat) (a : ℚ)
    (hnd : PairsNodup m.affinity)
    (hall : ∀ v ∈ test, (m.user2index v).isSome)
    (hu : u ∈ test)
    (hidx : m.user2index u = some ui)
    (he : (ui, i, a) ∈ m.affinity)
    (ha : 0 < a) :
    ∃ res, score m test true false = Except.ok res ∧
      ∀ p ∈ res, p.1 = u → p.2 i = F.ninf := by
  have hany := dedup_any_isNone_false m test hall
  refine ⟨(dedupFirst test).map (fun v =>
      (v, fun j => fadd (F.fin (scoreRowRaw m ((m.user2index v).getD 0) j))
        (maskTerm m ((m.user2index v).getD 0) j))), ?_, ?_⟩
  · simp [score, hany]
  · intro p hp hpu
    rcases List.mem_map.mp hp with ⟨v, _, rfl⟩
    simp only at hpu ⊢
    subst hpu
    rw [hidx]
    simp only [Option.getD_some]
    rw [maskTerm_pos m ui i a hnd he ha]
    simp [fadd]

/-- C1, witness model: one user with a positive affinity entry. -/
def mC1w : Model :=
  ⟨1, 1, fun u => if u = 0 then some 0 else none, fun _ => none, fun _ => 0,
    [(0, 0, (2 : ℚ))], none, fun _ _ => 1⟩

/-- C1 (witness): the amended theorem applied to a concrete model. -/
theorem sar_C1_witness :
    ∃ res, score mC1w [0] true false = Except.ok res ∧
      ∀ p ∈ res, p.1 = 0 → p.2 0 = F.ninf :=
  sar_C1_amended mC1w [0] 0 0 0 2 (by decide) (by decide) (by decide)
    (by decide) (by decide) (by decide)

/-- C3: with `normalize = true`, `score` fails with the
normalization-unavailable error when no unity affinity matrix was built at
fit time; otherwise every returned cell is the raw score divided cellwise
by the unity-affinity score computed the same way, with NaN (0/0) results
replaced by `-inf` and never returned as NaN. -/
theorem sar_C3_normalization (m : Model) (test : List Nat)
    (hall : ∀ v ∈ test, (m.user2index v).isSome) :
    (m.unityAffinity = none →
      score m test false true = Except.error ScoreErr.normalizationUnavailable) ∧
    (∀ ua, m.unityAffinity = some ua →
      ∃ res, score m test false true = Except.ok res ∧
        ∀ p ∈ res, ∀ i,
          p.2 i = nanToNinf (fdiv
            (F.fin (scoreRowRaw m ((m.user2index p.1).getD 0) i))
            (F.fin (unityRowRaw ua m.sim ((m.user2index p.1).getD 0) i))) ∧
          p.2 i ≠ F.nan) := by
  have hany := dedup_any_isNone_false m test hall
  constructor
  · intro hnone
    simp [score, hany, hnone]
  · intro ua hua
    refine ⟨(dedupFirst test).map (fun v =>
        (v, fun i => nanToNinf (fdiv
          (F.fin (scoreRowRaw m ((m.user2index v).getD 0) i))
          (F.fin (unityRowRaw ua m.sim ((m.user2index v).getD 0) i))))), ?_, ?_⟩
    · simp [score, hany, hua]
    · intro p hp i
      rcases List.mem_map.mp hp with ⟨v, _, rfl⟩
      exact ⟨rfl, nanToNinf_ne_nan _⟩

/-- C3, witness model without a unity affinity matrix. -/
def mUnityNone : Model :=
  ⟨1, 1, fun u => if u = 0 then some 0 else none, fun _ => none, fun _ => 0,
    [(0, 0, (2 : ℚ))], none, fun _ _ => 1⟩

/-- C3, witness model with a unity affinity matrix. -/
def mUnitySome : Model :=
  { mUnityNone with unityAffinity := some [(0, 0, (1 : ℚ))] }

/-- C3 (witness): both branches of the theorem at concrete models. -/
theorem sar_C3_witness :
    score mUnityNone [0] false true = Except.error ScoreErr.normalizationUnavailable ∧
    (∃ res, score mUnitySome [0] false true = Except.ok res ∧
      ∀ p ∈ res, ∀ i,
        p.2 i = nanToNinf (fdiv
          (F.fin (scoreRowRaw mUnitySome ((mUnitySome.user2index p.1).getD 0) i))
          (F.fin (unityRowRaw [(0, 0, (1 : ℚ))] mUnitySome.sim
            ((mUnitySome.user2index p.1).getD 0) i))) ∧
        p.2 i ≠ F.nan) :=
  ⟨(sar_C3_normalization mUnityNone [0] (by decide)).1 rfl,
   (sar_C3_normalization mUnitySome [0] (by decide)).2 [(0, 0, (1 : ℚ))] rfl⟩

/-- C6: if any requested user id is absent from the Identity Index,
`score` fails with the unknown-user error for the whole batch call, for
every flag combination — no partial results are produced. -/
theorem sar_C6_unknown_user (m : Model) (test : List Nat) (u : Nat) (rs nz : Bool)
    (hu : u ∈ test) (hnone : m.user2index u = none) :
    score m test rs nz = Except.error ScoreErr.unknownEntity := by
  have hany : ((dedupFirst test).any (fun v => (m.user2index v).isNone)) = true := by
    rw [List.any_eq_true]
    exact ⟨u, (mem_dedupFirst u test).mpr hu, by simp [hnone]⟩
  simp [score, hany]

/-- C6, witness model: trained on user 0 only. -/
def mC6 : Model :=
  ⟨1, 1, fun u => if u = 0 then some 0 else none, fun _ => none, fun _ => 0,
    [(0, 0, (1 : ℚ))], none, fun _ _ => 1⟩

/-- C6 (witness): a mixed batch containing the known user 0 and the
unknown user 3 fails as a whole. -/
theorem sar_C6_witness :
    score mC6 [0, 3] false false = Except.error ScoreErr.unknownEntity :=
  sar_C6_unknown_user mC6 [0, 3] 3 false false (by decide) (by decide)

/-- C10: after `load_file` returns, `n_users` is the number of distinct
user ids of the supplied ratings dataframe and `n_items` is the size of
the restored index-to-item mapping — the transient
`self.n_users = self.n_items = len(self.user2index)` assignment is
overwritten before the method returns. -/
theorem sar_C10_load_counts (s : LoadState) (idx2item item2idx : List (Nat × Nat))
    (dfUsers : List Nat) :
    (load_file s idx2item item2idx dfUsers).n_users = (dedupFirst dfUsers).length ∧
    (load_file s idx2item item2idx dfUsers).n_items = idx2item.length := by
  constructor <;> simp [load_file]

theorem dedupKeepLast_sublist : ∀ rows : List Row, List.Sublist (dedupKeepLast rows) rows := by
  intro rows
  induction rows with
  | nil => simp [dedupKeepLast]
  | cons r rs ih =>
      unfold dedupKeepLast
      split
      · exact ih.trans (List.sublist_cons_self r rs)
      · exact ih.cons₂ r

theorem rowsNodup_dedupKeepLast : ∀ rows : List Row, RowsNodup (dedupKeepLast rows) := by
  intro rows
  induction rows with
  | nil => simp [dedupKeepLast, RowsNodup]
  | cons r rs ih =>
      unfold dedupKeepLast
      split
      · exact ih
      · rename_i hany
        simp only [RowsNodup, List.map_cons, List.nodup_cons]
        refine ⟨fun hc => ?_, ih⟩
        rcases List.mem_map.mp hc with ⟨s, hs, hpair⟩
        have hs2 : s ∈ rs := (dedupKeepLast_sublist rs).subset hs
        apply hany
        rw [List.any_eq_true]
        refine ⟨s, hs2, ?_⟩
        simp only [samePair, decide_eq_true_eq]
        exact ⟨congrArg Prod.fst hpair, congrArg Prod.snd hpair⟩

theorem getLast?_cons_ne_nil {α : Type} (a : α) (l : List α) (h : l ≠ []) :
    (a :: l).getLast? = l.getLast? := by
  cases l with
  | nil => exact absurd rfl h
  | cons b bs => simp [List.getLast?_cons_cons]

theorem find?_dedupKeepLast (u i : Nat) :
    ∀ rows : List Row,
      (dedupKeepLast rows).find? (pmatch u i) = (rows.filter (pmatch u i)).getLast? := by
  intro rows
  induction rows with
  | nil => simp [dedupKeepLast]
  | cons r rs ih =>
      unfold dedupKeepLast
      by_cases hm : pmatch u i r = true
      · have hm2 := hm
        simp only [pmatch, decide_eq_true_eq] at hm2
        by_cases hany : rs.any (samePair r) = true
        · rw [if_pos hany, List.filter_cons_of_pos hm]
          obtain ⟨s, hs, hsp⟩ := List.any_eq_true.mp hany
          simp only [samePair, decide_eq_true_eq] at hsp
          have hsm : s ∈ rs.filter (pmatch u i) := by
            rw [List.mem_filter]
            exact ⟨hs, by simp [pmatch, hsp.1, hsp.2, hm2.1, hm2.2]⟩
          rw [getLast?_cons_ne_nil _ _ (List.ne_nil_of_mem hsm)]
          exact ih
        · rw [if_neg hany, List.find?_cons_of_pos _ hm, List.filter_cons_of_pos hm]
          have hnil : rs.filter (pmatch u i) = [] := by
            rw [List.filter_eq_nil_iff]
            intro s hs hc
            simp only [pmatch, decide_eq_true_eq] at hc
            apply hany
            rw [List.any_eq_true]
            exact ⟨s, hs, by simp [samePair, hc.1, hc.2, hm2.1, hm2.2]⟩
          rw [hnil]
          rfl
      · by_cases hany : rs.any (samePair r) = true
        · rw [if_pos hany, List.filter_cons_of_neg (by simpa using hm)]
          exact ih
        · rw [if_neg hany, List.find?_cons_of_neg _ hm,
            List.filter_cons_of_neg (by simpa using hm)]
          exact ih

theorem filter_of_rowsNodup (u i : Nat) :
    ∀ l : List Row, RowsNodup l →
      l.filter (pmatch u i) = (l.find? (pmatch u i)).toList := by
  intro l
  induction l with
  | nil => intro _; simp
  | cons r rs ih =>
      intro hnd
      simp only [RowsNodup, List.map_cons, List.nodup_cons] at hnd
      obtain ⟨hni, hnd2⟩ := hnd
      by_cases hm : pmatch u i r = true
      · rw [List.filter_cons_of_pos hm, List.find?_cons_of_pos _ hm]
        have hnil : rs.filter (pmatch u i) = [] := by
          rw [List.filter_eq_nil_iff]
          intro s hs hc
          simp only [pmatch, decide_eq_true_eq] at hm hc
          exact hni (List.mem_map.mpr ⟨s, hs, by
            rw [hc.1, hc.2, hm.1, hm.2]⟩)
        rw [hnil]
        rfl
      · rw [List.filter_cons_of_neg (by simpa using hm), List.find?_cons_of_neg _ hm]
        exact ih hnd2

/-- C4, counterexample input: the same (user, item) key twice, with the
MORE recent timestamp on the EARLIER row. -/
def exRows4 : List Row := [⟨0, 0, 1, 10⟩, ⟨0, 0, 2, 5⟩]

/-- C4 (counterexample): the code's no-decay deduplication keeps the last
row in input order (rating 2, timestamp 5), while the claimed
"most recent by timestamp" policy keeps the row with timestamp 10. -/
theorem sar_C4_counterexample :
    dedupKeepLast exRows4 = [⟨0, 0, 2, 5⟩] ∧
    specDedup exRows4 = [⟨0, 0, 1, 10⟩] ∧
    dedupKeepLast exRows4 ≠ specDedup exRows4 := by
  decide

/-- C4 (amended): when time decay is disabled, `fit` reduces the rows to
at most one row per (user, item) key by keeping only the LAST row of the
key in input order (the timestamp column has been dropped and is never
consulted), and the resulting affinity cell is that single row's rating —
no summation of weights occurs in this branch. -/
theorem sar_C4_amended (rows : List Row) :
    RowsNodup (dedupKeepLast rows) ∧
    (∀ u i, (dedupKeepLast rows).find? (pmatch u i) =
      (rows.filter (pmatch u i)).getLast?) ∧
    (∀ u i, affValue (dedupKeepLast rows) u i =
      (((rows.filter (pmatch u i)).getLast?).map Row.rating).getD 0) := by
  refine ⟨rowsNodup_dedupKeepLast rows, fun u i => find?_dedupKeepLast u i rows, ?_⟩
  intro u i
  rw [affValue, filter_of_rowsNodup u i _ (rowsNodup_dedupKeepLast rows),
    find?_dedupKeepLast u i rows]
  cases (rows.filter (pmatch u i)).getLast? <;> simp

theorem hits_cons (r : Row) (rs : List Row) (u i : Nat) :
    hits (r :: rs) u i = hits rs u i + (if pmatch u i r = true then 1 else 0) := by
  unfold hits
  rw [List.countP_cons]
  push_cast
  split <;> simp

theorem hits01 (u i : Nat) :
    ∀ rows : List Row, RowsNodup rows → hits rows u i = 0 ∨ hits rows u i = 1 := by
  intro rows
  induction rows with
  | nil => intro _; left; simp [hits]
  | cons r rs ih =>
      intro hnd
      simp only [RowsNodup, List.map_cons, List.nodup_cons] at hnd
      obtain ⟨hni, hnd2⟩ := hnd
      rw [hits_cons]
      by_cases hm : pmatch u i r = true
      · have hz : hits rs u i = 0 := by
          unfold hits
          norm_cast
          rw [List.countP_eq_zero]
          intro s hs hc
          simp only [pmatch, decide_eq_true_eq] at hm hc
          exact hni (List.mem_map.mpr ⟨s, hs, by rw [hc.1, hc.2, hm.1, hm.2]⟩)
        right
        rw [hz, if_pos hm, zero_add]
      · rw [if_neg hm, add_zero]
        exact ih hnd2

theorem sum_hits (i : Nat) :
    ∀ (rows : List Row) (nU : Nat), (∀ r ∈ rows, r.user < nU) →
      ∑ u ∈ Finset.range nU, hits rows u i =
        (rows.countP (fun r => decide (r.item = i)) : ℚ) := by
  intro rows
  induction rows with
  | nil => intro nU _; simp [hits]
  | cons r rs ih =>
      intro nU hb
      have hbr : r.user < nU := hb r (List.mem_cons_self r rs)
      have hbs : ∀ s ∈ rs, s.user < nU := fun s hs => hb s (List.mem_cons_of_mem r hs)
      simp only [hits_cons, Finset.sum_add_distrib]
      rw [ih nU hbs, List.countP_cons]
      by_cases hitem : r.item = i
      · have hind : ∀ u ∈ Finset.range nU,
            (if pmatch u i r = true then (1 : ℚ) else 0) =
              (if r.user = u then (1 : ℚ) else 0) := by
          intro u _
          simp [pmatch, hitem]
        rw [Finset.sum_congr rfl hind, Finset.sum_ite_eq (Finset.range nU) r.user
          (fun _ => (1 : ℚ))]
        rw [if_pos (Finset.mem_range.mpr hbr)]
        simp [hitem]
      · have hind : ∀ u ∈ Finset.range nU,
            (if pmatch u i r = true then (1 : ℚ) else 0) = 0 := by
          intro u _
          simp [pmatch, hitem]
        rw [Finset.sum_congr rfl hind]
        simp [hitem]

theorem nodup_user_of_item_fixed (i : Nat) :
    ∀ l : List Row, (∀ r ∈ l, r.item = i) →
      (l.map (fun r => (r.user, r.item))).Nodup → (l.map Row.user).Nodup := by
  intro l
  induction l with
  | nil => intro _ _; simp
  | cons r rs ih =>
      intro hitem hnd
      rw [List.map_cons, List.nodup_cons] at hnd ⊢
      obtain ⟨hni, hnd2⟩ := hnd
      refine ⟨fun hc => ?_, ih (fun s hs => hitem s (List.mem_cons_of_mem r hs)) hnd2⟩
      rcases List.mem_map.mp hc with ⟨s, hs, hu⟩
      refine hni (List.mem_map.mpr ⟨s, hs, ?_⟩)
      have h1 : s.item = i := hitem s (List.mem_cons_of_mem r hs)
      have h2 : r.item = i := hitem r (List.mem_cons_self r rs)
      rw [hu, h1, h2]

/-- C2: for every threshold t ≥ 1, the diagonal cell (i,i) of the
co-occurrence matrix computed BEFORE masking equals the number of distinct
users who interacted with item i, and the mask zeroes exactly the cells
strictly below the threshold while leaving the others unchanged.  The two
side conditions are the invariants `fit` establishes before calling
`compute_coocurrence_matrix`: the frame has been deduplicated to one row
per (user, item) key, and every user index is below `n_users`. -/
theorem sar_C2_cooccurrence (rows : List Row) (nU : Nat) (t : ℚ)
    (ht : 1 ≤ t) (hnd : RowsNodup rows) (hb : ∀ r ∈ rows, r.user < nU) :
    (∀ i, cooc rows nU i i =
      (((rows.filter (fun r => decide (r.item = i))).map Row.user).dedup.length : ℚ)) ∧
    (∀ i j, (cooc rows nU i j < t → coocMasked rows nU t i j = 0) ∧
      (t ≤ cooc rows nU i j → coocMasked rows nU t i j = cooc rows nU i j)) := by
  refine ⟨?_, ?_⟩
  · intro i
    have hsq : cooc rows nU i i = ∑ u ∈ Finset.range nU, hits rows u i := by
      unfold cooc
      refine Finset.sum_congr rfl (fun u _ => ?_)
      rcases hits01 u i rows hnd with h | h <;> rw [h] <;> ring
    have hmapnd : ((rows.filter (fun r => decide (r.item = i))).map Row.user).Nodup := by
      refine nodup_user_of_item_fixed i _ (fun s hs => ?_) ?_
      · have := (List.mem_filter.mp hs).2
        simpa using this
      · exact List.Nodup.sublist
          ((List.filter_sublist rows).map (fun r => (r.user, r.item))) hnd
    rw [hsq, sum_hits i rows nU hb, List.Nodup.dedup hmapnd,
      List.countP_eq_length_filter, List.length_map]
  · intro i j
    constructor
    · intro hlt
      unfold coocMasked
      rw [if_neg (not_le.mpr hlt), mul_zero]
    · intro hle
      unfold coocMasked
      rw [if_pos hle, mul_one]

/-- C2, witness rows: user 0 interacted with item 0; user 1 with items 0
and 1 (one deduplicated row per pair). -/
def rowsC2 : List Row := [⟨0, 0, 1, 0⟩, ⟨1, 0, 1, 0⟩, ⟨1, 1, 1, 0⟩]

/-- C2 (witness): the theorem applied to concrete rows with threshold 1. -/
theorem sar_C2_witness :
    (∀ i, cooc rowsC2 2 i i =
      (((rowsC2.filter (fun r => decide (r.item = i))).map Row.user).dedup.length : ℚ)) ∧
    (∀ i j, (cooc rowsC2 2 i j < 1 → coocMasked rowsC2 2 1 i j = 0) ∧
      ((1 : ℚ) ≤ cooc rowsC2 2 i j → coocMasked rowsC2 2 1 i j = cooc rowsC2 2 i j)) :=
  sar_C2_cooccurrence rowsC2 2 1 (by decide) (by decide) (by decide)

theorem filter_map_pm (g : Row → Row)
    (hg : ∀ r, (g r).user = r.user ∧ (g r).item = r.item) (u i : Nat) :
    ∀ rows : List Row,
      (rows.map g).filter (pmatch u i) = (rows.filter (pmatch u i)).map g := by
  intro rows
  induction rows with
  | nil => simp
  | cons r rs ih =>
      rw [List.map_cons]
      by_cases hm : pmatch u i r = true
      · rw [List.filter_cons_of_pos (by simpa [pmatch, (hg r).1, (hg r).2] using hm),
          List.filter_cons_of_pos hm, List.map_cons, ih]
      · rw [List.filter_cons_of_neg (by simpa [pmatch, (hg r).1, (hg r).2] using hm),
          List.filter_cons_of_neg hm, ih]

theorem affValue_map (g : Row → Row)
    (hg : ∀ r, (g r).user = r.user ∧ (g r).item = r.item)
    (rows : List Row) (u i : Nat) :
    affValue (rows.map g) u i =
      ((rows.filter (pmatch u i)).map (fun r => (g r).rating)).sum := by
  unfold affValue
  rw [filter_map_pm g hg u i rows, List.map_map]
  rfl

theorem tsSum_map (g : Row → Row)
    (hg : ∀ r, (g r).user = r.user ∧ (g r).item = r.item)
    (hgts : ∀ r, (g r).ts = r.ts) (rows : List Row) (u i : Nat) :
    tsSum (rows.map g) u i = tsSum rows u i := by
  unfold tsSum
  rw [filter_map_pm g hg u i rows, List.map_map]
  congr 1
  refine List.map_congr_left ?_
  intro r _
  exact hgts r

theorem dedupFirstAux_eq_self {α : Type} [DecidableEq α] :
    ∀ (l seen : List α), l.Nodup → (∀ a ∈ l, a ∉ seen) → dedupFirstAux seen l = l := by
  intro l
  induction l with
  | nil => intro seen _ _; rfl
  | cons x xs ih =>
      intro seen hnd hdisj
      rw [List.nodup_cons] at hnd
      unfold dedupFirstAux
      rw [if_neg (hdisj x (List.mem_cons_self x xs))]
      congr 1
      refine ih (x :: seen) hnd.2 ?_
      intro a ha hc
      rcases List.mem_cons.mp hc with h | h
      · exact hnd.1 (h ▸ ha)
      · exact hdisj a (List.mem_cons_of_mem x ha) h

theorem dedupFirst_eq_self {α : Type} [DecidableEq α] (l : List α) (h : l.Nodup) :
    dedupFirst l = l :=
  dedupFirstAux_eq_self l [] h (by simp)

theorem pairsOf_map (g : Row → Row)
    (hg : ∀ r, (g r).user = r.user ∧ (g r).item = r.item) (rows : List Row) :
    pairsOf (rows.map g) = pairsOf rows := by
  unfold pairsOf
  rw [List.map_map]
  congr 1
  refine List.map_congr_left ?_
  intro r _
  simp [(hg r).1, (hg r).2]

theorem affValue_mapPairs (f : Nat × Nat → Row)
    (hf : ∀ p, (f p).user = p.1 ∧ (f p).item = p.2) (u i : Nat) :
    ∀ ps : List (Nat × Nat), ps.Nodup →
      affValue (ps.map f) u i = if (u, i) ∈ ps then (f (u, i)).rating else 0 := by
  intro ps
  induction ps with
  | nil => intro _; simp [affValue]
  | cons p ps ih =>
      intro hnd
      rw [List.nodup_cons] at hnd
      obtain ⟨hni, hnd2⟩ := hnd
      by_cases hp : p = (u, i)
      · subst hp
        unfold affValue
        rw [List.map_cons,
          List.filter_cons_of_pos (by simp [pmatch, (hf (u, i)).1, (hf (u, i)).2]),
          List.map_cons, List.sum_cons]
        have h0 : (((ps.map f).filter (pmatch u i)).map Row.rating).sum = 0 := by
          have h1 := ih hnd2
          unfold affValue at h1
          rw [h1, if_neg hni]
        rw [h0, add_zero, if_pos (List.mem_cons_self _ _)]
      · have hcond : ¬((f p).user = u ∧ (f p).item = i) := by
          intro hc
          apply hp
          have h1 : p.1 = u := by rw [← (hf p).1]; exact hc.1
          have h2 : p.2 = i := by rw [← (hf p).2]; exact hc.2
          exact Prod.ext h1 h2
        unfold affValue
        rw [List.map_cons, List.filter_cons_of_neg (by simpa [pmatch] using hcond)]
        have h1 := ih hnd2
        unfold affValue at h1
        rw [h1]
        have hiff : (u, i) ∈ p :: ps ↔ (u, i) ∈ ps := by
          rw [List.mem_cons]
          exact ⟨fun h => h.resolve_left (fun hh => hp hh.symm), Or.inr⟩
        by_cases hmem : (u, i) ∈ ps
        · rw [if_pos hmem, if_pos (hiff.mpr hmem)]
        · rw [if_neg hmem, if_neg (fun hc => hmem (hiff.mp hc))]

theorem nodup_pairsOf (rows : List Row) : (pairsOf rows).Nodup :=
  nodup_dedupFirst _

theorem map_pair_groupRows (rows : List Row) :
    (groupRows rows).map (fun r => (r.user, r.item)) = pairsOf rows := by
  unfold groupRows
  rw [List.map_map]
  have hcomp : ((fun r => (r.user, r.item)) ∘
      (fun p : Nat × Nat =>
        (⟨p.1, p.2, affValue rows p.1 p.2, tsSum rows p.1 p.2⟩ : Row))) = id := by
    funext p
    simp
  rw [hcomp, List.map_id]

theorem pairsOf_groupRows (rows : List Row) :
    pairsOf (groupRows rows) = pairsOf rows := by
  show dedupFirst ((groupRows rows).map (fun r => (r.user, r.item))) = pairsOf rows
  rw [map_pair_groupRows]
  exact dedupFirst_eq_self _ (nodup_pairsOf rows)

theorem affValue_groupRows (rows : List Row) (u i : Nat) :
    affValue (groupRows rows) u i =
      if (u, i) ∈ pairsOf rows then affValue rows u i else 0 := by
  unfold groupRows
  rw [affValue_mapPairs _ (fun p => ⟨rfl, rfl⟩) u i _ (nodup_pairsOf rows)]

/-- C5 (amended): with time decay enabled, the code's unity-affinity cell
for a present (user, item) pair is ONE decay factor evaluated at the SUM
of the pair's raw timestamps (because the rating-pipeline
`groupby(...).sum()` has already summed the timestamp column before the
unity column is decayed), whereas the spec's identical-pipeline
construction yields the SUM over the pair's raw rows of the per-row decay
factors.  The two agree only in degenerate cases such as a single row per
pair. -/
theorem sar_C5_amended (dec : ℚ → ℚ) (rows : List Row) (u i : Nat) :
    codeUnityAff dec rows u i =
      (if (u, i) ∈ pairsOf rows then dec (tsSum rows u i) else 0) ∧
    specUnityAff dec rows u i =
      (if (u, i) ∈ pairsOf rows then
        ((rows.filter (pmatch u i)).map (fun r => dec r.ts)).sum else 0) := by
  constructor
  · show affValue (codeUnityRows dec rows) u i = _
    unfold codeUnityRows
    rw [affValue_groupRows]
    have hg : ∀ r : Row,
        ((fun r : Row => { r with rating := dec r.ts }) r).user = r.user ∧
        ((fun r : Row => { r with rating := dec r.ts }) r).item = r.item :=
      fun r => ⟨rfl, rfl⟩
    have hdecR : ∀ r : Row,
        ((fun r : Row => { r with rating := r.rating * dec r.ts }) r).user = r.user ∧
        ((fun r : Row => { r with rating := r.rating * dec r.ts }) r).item = r.item :=
      fun r => ⟨rfl, rfl⟩
    have hpairs : pairsOf ((timeDecayRating dec rows).map
        (fun r => { r with rating := dec r.ts })) = pairsOf rows := by
      rw [pairsOf_map _ hg]
      unfold timeDecayRating
      rw [pairsOf_groupRows, pairsOf_map _ hdecR]
    rw [hpairs]
    by_cases hmem : (u, i) ∈ pairsOf rows
    · rw [if_pos hmem, if_pos hmem]
      unfold timeDecayRating groupRows
      rw [List.map_map, affValue_mapPairs _ (fun p => ⟨rfl, rfl⟩) u i _
        (by rw [pairsOf_map _ hdecR]; exact nodup_pairsOf rows)]
      rw [pairsOf_map _ hdecR, if_pos hmem]
      show dec (tsSum (rows.map (fun r => { r with rating := r.rating * dec r.ts })) u i) = _
      rw [tsSum_map _ hdecR (fun r => rfl) rows u i]
    · rw [if_neg hmem, if_neg hmem]
  · show affValue (specUnityRows dec rows) u i = _
    unfold specUnityRows timeDecayRating
    rw [affValue_groupRows, List.map_map]
    have hcomb : ∀ r : Row,
        (((fun r : Row => { r with rating := r.rating * dec r.ts }) ∘
          (fun r : Row => { r with rating := (1 : ℚ) })) r).user = r.user ∧
        (((fun r : Row => { r with rating := r.rating * dec r.ts }) ∘
          (fun r : Row => { r with rating := (1 : ℚ) })) r).item = r.item :=
      fun r => ⟨rfl, rfl⟩
    rw [pairsOf_map _ hcomb]
    by_cases hmem : (u, i) ∈ pairsOf rows
    · rw [if_pos hmem, if_pos hmem, affValue_map _ hcomb]
      congr 1
      refine List.map_congr_left ?_
      intro r _
      show (1 : ℚ) * dec r.ts = dec r.ts
      rw [one_mul]
    · rw [if_neg hmem, if_neg hmem]

/-- C5, counterexample input: the same (user, item) key on two raw rows,
both stamped at the reference time 100. -/
def exRows5 : List Row := [⟨0, 0, 5, 100⟩, ⟨0, 0, 3, 100⟩]

/-- C5, counterexample decay function.  It satisfies the spec's black-box
contract (every value lies in (0, 1]) and it agrees with the genuine
exponential half-life decay `min(1, 2^((t − reference)/half_life))` at
every timestamp at which the pipelines evaluate it here (100 and 200,
both at or above the reference time 100, where the true decay is
exactly 1). -/
def decOne : ℚ → ℚ := fun _ => 1

/-- C5 (counterexample): on two same-key rows the code's unity affinity is
`dec(100 + 200) = 1` — one decay factor at the summed timestamp — while
the claimed identical pipeline with unit weights gives
`dec(100) + dec(100) = 2`. -/
theorem sar_C5_counterexample :
    codeUnityAff decOne exRows5 0 0 = 1 ∧
    specUnityAff decOne exRows5 0 0 = 2 ∧
    codeUnityAff decOne exRows5 0 0 ≠ specUnityAff decOne exRows5 0 0 := by
  have h1 : codeUnityAff decOne exRows5 0 0 = 1 := by
    norm_num [codeUnityAff, codeUnityRows, timeDecayRating, groupRows, pairsOf,
      dedupFirst, dedupFirstAux, affValue, tsSum, pmatch, decOne, exRows5]
  have h2 : specUnityAff decOne exRows5 0 0 = 2 := by
    norm_num [specUnityAff, specUnityRows, timeDecayRating, groupRows, pairsOf,
      dedupFirst, dedupFirstAux, affValue, tsSum, pmatch, decOne, exRows5]
  refine ⟨h1, h2, ?_⟩
  rw [h1, h2]
  norm_num

/-- C7, failing model: two training users (indices 0 and 1) over a
one-item catalog (external item id 5 at index 0). -/
def mC7 : Model :=
  ⟨2, 1, fun u => if u = 0 then some 0 else if u = 1 then some 1 else none,
    fun it => if it = 5 then some 0 else none, fun _ => 5,
    [(0, 0, (1 : ℚ)), (1, 0, (1 : ℚ))], none, fun _ _ => 1⟩

/-- C7 (code bug): a prediction request by the single test user 1 for the
unknown item 99 does NOT degrade to a zero score — the zero column
appended by `np.append(test_scores, np.zeros((self.n_users, 1)), axis=1)`
has `n_users = 2` rows while the score matrix has one row per distinct
test user (here 1), so numpy raises a dimension-mismatch `ValueError`
after the warning is logged, failing the whole call. -/
theorem sar_C7_failing :
    predict mC7 [(1, 99)] = Except.error PredictErr.shapeMismatch := by
  rfl

theorem innerFold_eval {α : Type} (idxf : Nat → Nat) (fF : α → α → ℚ)
    (ri : Nat × α) (a b : Nat) :
    ∀ (L : List (Nat × α)) (M : Nat → Nat → ℚ),
      (L.map (fun r => idxf r.1)).Nodup →
      (L.foldl (fun M rj => writeCell M (idxf ri.1) (idxf rj.1) (fF ri.2 rj.2)) M) a b =
        match L.find? (fun rj => decide (idxf rj.1 = b)) with
        | some rj => if a = idxf ri.1 then fF ri.2 rj.2 else M a b
        | none => M a b := by
  intro L
  induction L with
  | nil => intro M _; rfl
  | cons r0 L ih =>
      intro M hnd
      rw [List.map_cons, List.nodup_cons] at hnd
      obtain ⟨hni, hnd2⟩ := hnd
      rw [List.foldl_cons]
      by_cases hb : idxf r0.1 = b
      · rw [List.find?_cons_of_pos _ (by simpa using hb)]
        have hfnone : L.find? (fun rj => decide (idxf rj.1 = b)) = none := by
          rw [List.find?_eq_none]
          intro x hx hc
          simp only [decide_eq_true_eq] at hc
          refine hni ?_
          rw [hb, ← hc]
          exact List.mem_map.mpr ⟨x, hx, rfl⟩
        rw [ih (writeCell M (idxf ri.1) (idxf r0.1) (fF ri.2 r0.2)) hnd2, hfnone]
        dsimp only
        unfold writeCell
        by_cases ha : a = idxf ri.1
        · rw [if_pos ⟨ha, hb.symm⟩, if_pos ha]
        · rw [if_neg (fun hc => ha hc.1), if_neg ha]
      · rw [List.find?_cons_of_neg _ (by simpa using hb)]
        rw [ih (writeCell M (idxf ri.1) (idxf r0.1) (fF ri.2 r0.2)) hnd2]
        cases hf : L.find? (fun rj => decide (idxf rj.1 = b)) with
        | some rj =>
            dsimp only
            by_cases ha : a = idxf ri.1
            · rw [if_pos ha, if_pos ha]
            · rw [if_neg ha, if_neg ha]
              unfold writeCell
              rw [if_neg (fun hc => hb hc.2.symm)]
        | none =>
            dsimp only
            unfold writeCell
            rw [if_neg (fun hc => hb hc.2.symm)]

theorem outerFold_eval {α : Type} (idxf : Nat → Nat) (fF : α → α → ℚ)
    (feats : List (Nat × α)) (hndF : (feats.map (fun r => idxf r.1)).Nodup)
    (a b : Nat) :
    ∀ (O : List (Nat × α)) (M : Nat → Nat → ℚ),
      (O.map (fun r => idxf r.1)).Nodup →
      (O.foldl (fun M ri =>
        feats.foldl (fun M rj => writeCell M (idxf ri.1) (idxf rj.1) (fF ri.2 rj.2)) M) M) a b =
        match O.find? (fun r => decide (idxf r.1 = a)),
              feats.find? (fun r => decide (idxf r.1 = b)) with
        | some ri, some rj => fF ri.2 rj.2
        | _, _ => M a b := by
  intro O
  induction O with
  | nil =>
      intro M _
      cases feats.find? (fun r => decide (idxf r.1 = b)) <;> rfl
  | cons r0 O ih =>
      intro M hnd
      rw [List.map_cons, List.nodup_cons] at hnd
      obtain ⟨hni, hnd2⟩ := hnd
      rw [List.foldl_cons]
      by_cases haf : idxf r0.1 = a
      · rw [List.find?_cons_of_pos _ (by simpa using haf)]
        have hfnone : O.find? (fun r => decide (idxf r.1 = a)) = none := by
          rw [List.find?_eq_none]
          intro x hx hc
          simp only [decide_eq_true_eq] at hc
          refine hni ?_
          rw [haf, ← hc]
          exact List.mem_map.mpr ⟨x, hx, rfl⟩
        rw [ih _ hnd2, hfnone]
        rw [innerFold_eval idxf fF r0 a b feats M hndF]
        cases hfb : feats.find? (fun r => decide (idxf r.1 = b)) with
        | some rj =>
            dsimp only
            rw [if_pos haf.symm]
        | none => dsimp only
      · rw [List.find?_cons_of_neg _ (by simpa using haf)]
        rw [ih _ hnd2]
        rw [innerFold_eval idxf fF r0 a b feats M hndF]
        cases hfa : O.find? (fun r => decide (idxf r.1 = a)) with
        | some ri =>
            cases hfb : feats.find? (fun r => decide (idxf r.1 = b)) with
            | some rj => dsimp only
            | none => dsimp only
        | none =>
            cases hfb : feats.find? (fun r => decide (idxf r.1 = b)) with
            | some rj =>
                dsimp only
                rw [if_neg (fun hc => haf hc.symm)]
            | none => dsimp only

theorem makeSimMatrix_eval {α : Type} (idxf : Nat → Nat) (fF : α → α → ℚ)
    (feats : List (Nat × α)) (init : Nat → Nat → ℚ)
    (hnd : (feats.map (fun r => idxf r.1)).Nodup) (a b : Nat) :
    makeSimMatrix idxf fF feats init a b =
      match feats.find? (fun r => decide (idxf r.1 = a)),
            feats.find? (fun r => decide (idxf r.1 = b)) with
      | some ri, some rj => fF ri.2 rj.2
      | _, _ => init a b :=
  outerFold_eval idxf fF feats hnd a b feats init hnd

theorem find?_of_mem_idx {α : Type} (idxf : Nat → Nat) (feats : List (Nat × α))
    (a : Nat) (ha : a ∈ feats.map (fun r => idxf r.1)) :
    ∃ ra, feats.find? (fun r => decide (idxf r.1 = a)) = some ra := by
  rcases List.mem_map.mp ha with ⟨ra, hra, hfa⟩
  cases hf : feats.find? (fun r => decide (idxf r.1 = a)) with
  | some rb => exact ⟨rb, rfl⟩
  | none =>
      exfalso
      exact absurd (by simpa using hfa) (by simpa using List.find?_eq_none.mp hf ra hra)

theorem makeSimMatrix_symm {α : Type} (idxf : Nat → Nat) (fF : α → α → ℚ)
    (feats : List (Nat × α)) (init : Nat → Nat → ℚ)
    (hsym : ∀ x y, fF x y = fF y x)
    (hnd : (feats.map (fun r => idxf r.1)).Nodup) (a b : Nat)
    (ha : a ∈ feats.map (fun r => idxf r.1))
    (hb : b ∈ feats.map (fun r => idxf r.1)) :
    makeSimMatrix idxf fF feats init a b = makeSimMatrix idxf fF feats init b a := by
  obtain ⟨ra, hfa⟩ := find?_of_mem_idx idxf feats a ha
  obtain ⟨rb, hfb⟩ := find?_of_mem_idx idxf feats b hb
  rw [makeSimMatrix_eval idxf fF feats init hnd a b,
    makeSimMatrix_eval idxf fF feats init hnd b a, hfa, hfb]
  exact hsym ra.2 rb.2

/-- C9: the co-occurrence matrix (before and after masking) is symmetric,
and the item-similarity matrix is symmetric in every similarity mode —
raw co-occurrence, jaccard, lift, and custom — provided the
caller-supplied pairwise feature similarity function is symmetric.  The
custom-mode statement holds on all catalog cells under the Identity Index
invariants: the feature rows map to pairwise distinct item indices and
cover every index below `n`. -/
theorem sar_C9_symmetry {α : Type} (rows : List Row) (nU : Nat) (t : ℚ)
    (idxf : Nat → Nat) (fF : α → α → ℚ) (feats : List (Nat × α))
    (init : Nat → Nat → ℚ) (w : ℚ) (n : Nat)
    (hsym : ∀ x y, fF x y = fF y x)
    (hnd : (feats.map (fun r => idxf r.1)).Nodup)
    (hcov : ∀ k, k < n → k ∈ feats.map (fun r => idxf r.1)) :
    (∀ i j, cooc rows nU i j = cooc rows nU j i) ∧
    (∀ i j, coocMasked rows nU t i j = coocMasked rows nU t j i) ∧
    (∀ i j, simJaccard rows nU t i j = simJaccard rows nU t j i) ∧
    (∀ i j, simLift rows nU t i j = simLift rows nU t j i) ∧
    (∀ i j, i < n → j < n →
      customSim rows nU t w idxf fF feats init i j =
        customSim rows nU t w idxf fF feats init j i) := by
  have hc : ∀ i j, cooc rows nU i j = cooc rows nU j i := by
    intro i j
    unfold cooc
    exact Finset.sum_congr rfl (fun u _ => mul_comm _ _)
  have hm : ∀ i j, coocMasked rows nU t i j = coocMasked rows nU t j i := by
    intro i j
    unfold coocMasked
    rw [hc i j]
  have hj : ∀ i j, simJaccard rows nU t i j = simJaccard rows nU t j i := by
    intro i j
    unfold simJaccard
    rw [hm i j, add_comm (coocMasked rows nU t i i) (coocMasked rows nU t j j)]
  have hl : ∀ i j, simLift rows nU t i j = simLift rows nU t j i := by
    intro i j
    unfold simLift
    rw [hm i j, mul_comm (coocMasked rows nU t i i) (coocMasked rows nU t j j)]
  refine ⟨hc, hm, hj, hl, ?_⟩
  intro i j hi hjn
  unfold customSim
  rw [hj i j, makeSimMatrix_symm idxf fF feats init hsym hnd i j (hcov i hi) (hcov j hjn)]

/-- C9, witness feature table: items 0 and 1 with rational feature values. -/
def featsC9 : List (Nat × ℚ) := [(0, 2), (1, 3)]

/-- C9 (witness): the symmetry theorem applied to the concrete rows of
`rowsC2` with threshold 1, identity index mapping, multiplication as the
(symmetric) pairwise feature similarity, and rating weight 1/2. -/
theorem sar_C9_witness :
    (∀ i j, cooc rowsC2 2 i j = cooc rowsC2 2 j i) ∧
    (∀ i j, coocMasked rowsC2 2 1 i j = coocMasked rowsC2 2 1 j i) ∧
    (∀ i j, simJaccard rowsC2 2 1 i j = simJaccard rowsC2 2 1 j i) ∧
    (∀ i j, simLift rowsC2 2 1 i j = simLift rowsC2 2 1 j i) ∧
    (∀ i j, i < 2 → j < 2 →
      customSim rowsC2 2 1 (1 / 2) id (fun a b => a * b) featsC9 (fun _ _ => 0) i j =
        customSim rowsC2 2 1 (1 / 2) id (fun a b => a * b) featsC9 (fun _ _ => 0) j i) :=
  sar_C9_symmetry rowsC2 2 1 id (fun a b => a * b) featsC9 (fun _ _ => 0) (1 / 2) 2
    (fun x y => mul_comm x y) (by decide) (by decide)

theorem indexOf_getD_nodup (l : List Nat) (hnd : l.Nodup) (r : Nat)
    (hr : r < l.length) : l.indexOf (l.getD r 0) = r := by
  have hg : l.getD r 0 = l[r] := by
    rw [List.getD_eq_getElem?_getD, List.getElem?_eq_getElem hr]
    rfl
  rw [hg]
  exact List.indexOf_getElem hnd r hr

theorem mem_topK (n k : Nat) (row : Nat → F) (q : Nat × F) (hq : q ∈ topK n row k) :
    q.1 < n ∧ q.2 = row q.1 := by
  unfold topK at hq
  have h1 : q ∈ List.insertionSort topRel ((List.range n).map (fun i => (i, row i))) :=
    List.mem_of_mem_take hq
  have h2 : q ∈ (List.range n).map (fun i => (i, row i)) := by
    simpa using h1
  rcases List.mem_map.mp h2 with ⟨i, hi, hqi⟩
  rw [← hqi]
  exact ⟨List.mem_range.mp hi, rfl⟩

/-- C8: every row of the cold-start result table carries a finite
prediction, and no seed (grouping user, item) pair ever appears in the
returned table — the seed cells are forced to `-inf` before top-K
selection and all non-finite rows are dropped.  The hypotheses are the
Identity Index invariants: every seed item resolves, and `item2index`
inverts `index2item` on the catalog range. -/
theorem sar_C8_seed_masking (m : Model) (seeds : List (Nat × Nat × ℚ)) (k : Nat)
    (hknown : ∀ s ∈ seeds, (m.item2index s.2.1).isSome)
    (hinv2 : ∀ ii, ii < m.nItems → m.item2index (m.index2item ii) = some ii) :
    ((getItemBasedTopk m seeds k).all (fun p =>
      decide ((p.2.2 ≠ F.ninf ∧ p.2.2 ≠ F.nan) ∧
        ¬ ∃ s ∈ seeds, s.1 = p.1 ∧ s.2.1 = p.2.1))) = true := by
  rw [List.all_eq_true]
  intro p hp
  rw [decide_eq_true_eq]
  unfold getItemBasedTopk at hp
  obtain ⟨hmem, hval⟩ := List.mem_filter.mp hp
  rw [decide_eq_true_eq] at hval
  refine ⟨hval, ?_⟩
  rintro ⟨s, hs, hsu, hsi⟩
  rw [List.mem_flatten] at hmem
  obtain ⟨blk, hblk, hpblk⟩ := hmem
  rw [List.mem_map] at hblk
  obtain ⟨r, hr, rfl⟩ := hblk
  rw [List.mem_range] at hr
  rw [List.mem_map] at hpblk
  obtain ⟨q, hq, hpq⟩ := hpblk
  obtain ⟨hqlt, hqval⟩ := mem_topK m.nItems k (coldMasked m seeds r) q hq
  subst hpq
  simp only at hsu hsi hval
  have hidx : m.item2index s.2.1 = some q.1 := by
    rw [hsi]
    exact hinv2 q.1 hqlt
  have hlidx : seedLIdx seeds s.1 = r := by
    rw [hsu]
    exact indexOf_getD_nodup (seedUsers seeds) (nodup_dedupFirst _) r hr
  have hany : (seeds.any (fun t =>
      decide (seedLIdx seeds t.1 = r ∧ itemIdxOf m t.2.1 = q.1))) = true := by
    rw [List.any_eq_true]
    refine ⟨s, hs, ?_⟩
    rw [decide_eq_true_eq]
    refine ⟨hlidx, ?_⟩
    unfold itemIdxOf
    rw [hidx]
    rfl
  have hninf : coldMasked m seeds r q.1 = F.ninf := by
    unfold coldMasked
    rw [if_pos hany]
  exact hval.1 (by rw [hqval, hninf])

/-- C8, witness model: two items (external ids 10 and 11 at indices 0 and
1), no trained users needed for the cold-start path. -/
def mC8 : Model :=
  ⟨1, 2, fun _ => some 0,
    fun it => if it = 10 then some 0 else if it = 11 then some 1 else none,
    fun ii => if ii = 0 then 10 else 11, [], none,
    fun i j => if i = j then 0 else 1⟩

/-- C8, witness seed set: the single seed item 10 under grouping user 7. -/
def seedsC8 : List (Nat × Nat × ℚ) := [(7, 10, 1)]

/-- C8 (witness): the theorem applied to a concrete cold-start call. -/
theorem sar_C8_witness :
    ((getItemBasedTopk mC8 seedsC8 5).all (fun p =>
      decide ((p.2.2 ≠ F.ninf ∧ p.2.2 ≠ F.nan) ∧
        ¬ ∃ s ∈ seedsC8, s.1 = p.1 ∧ s.2.1 = p.2.1))) = true :=
  sar_C8_seed_masking mC8 seedsC8 5 (by decide) (by decide)

end SARSpec
